import Mathlib

/-!
Shallow embedding of the bounded-concurrency batch runner of `primoui/utils`
(`processBatch`, `processBatchWithErrorHandling`, `processWithConcurrency`,
`splitArrayIntoChunks`, `sleep`).

The runner is single-threaded cooperative async code.  We embed it as a
deterministic discrete-time simulation: a processor invocation on an item is
described by an `ItemSpec` giving the number of time ticks until its promise
settles and its outcome (resolution value or rejection value).  Time only
advances while the main coroutine is suspended at an `await`; synchronous
segments take zero time.  Timer callbacks with equal deadlines fire in
registration order (which is item-start order), and `.then` continuations of
already-settled promises fire in handler-attachment order; both conventions
are reflected in the tie-breaking rules below.
-/

set_option maxRecDepth 4096

namespace BatchModel

/-- Model of a JavaScript runtime value as far as the batch runner inspects
one: `error` is an `Error` instance (identified by its message), the other
constructors are non-`Error` values that can be thrown. -/
inductive JSVal where
  | error (message : String)
  | str (s : String)
  | num (n : Int)
  | boolean (b : Bool)
  | nullV
  | undef
deriving DecidableEq, Repr

/-- Model of the JavaScript `v instanceof Error` test. -/
def instanceofError : JSVal → Bool
  | .error _ => true
  | _ => false

/-- Model of JavaScript `String(v)` on the values above
(`String(err)` yields `"Error: " + message` for a default-named error). -/
def jsToString : JSVal → String
  | .error m => "Error: " ++ m
  | .str s => s
  | .num n => toString n
  | .boolean b => if b then "true" else "false"
  | .nullV => "null"
  | .undef => "undefined"

/-- Embedding of `error instanceof Error ? error : new Error(String(error))`
from `wrappedProcessor` in `processBatchWithErrorHandling`. -/
def normalizeError (v : JSVal) : JSVal :=
  if instanceofError v then v else .error (jsToString v)

/-- Behaviour of one processor invocation: it settles `dur` ticks after it is
started, resolving with a value of `R` or rejecting with a thrown `E`. -/
structure ItemSpec (R E : Type) where
  dur : Nat
  out : Except E R
deriving Repr

instance {E R : Type} [DecidableEq E] [DecidableEq R] : DecidableEq (Except E R) := fun a b =>
  match a, b with
  | .ok x, .ok y =>
    if h : x = y then .isTrue (h ▸ rfl) else .isFalse fun he => h (Except.ok.inj he)
  | .error x, .error y =>
    if h : x = y then .isTrue (h ▸ rfl) else .isFalse fun he => h (Except.error.inj he)
  | .ok _, .error _ => .isFalse fun h => Except.noConfusion h
  | .error _, .ok _ => .isFalse fun h => Except.noConfusion h

/-- `outVal e` is `some r` iff `e` is a resolution with value `r`. -/
def outVal : Except E R → Option R
  | .ok r => some r
  | .error _ => none

/-- One started processor invocation: its (batch-local or global) item index,
its absolute start time, and its behaviour. -/
structure Flight (R E : Type) where
  idx : Nat
  start : Nat
  spec : ItemSpec R E
deriving Repr

/-- Absolute time at which a started invocation's promise settles. -/
def Flight.settle (f : Flight R E) : Nat := f.start + f.spec.dur

/-- Time at which an observer awaiting from time `t` sees `f` settle: a
promise already settled is observed now (in a microtask), a future settlement
is observed when it happens. -/
def effSettle (t : Nat) (f : Flight R E) : Nat := max t f.settle

/-- Winner of `Promise.race` over the nonempty list `f :: fs` awaited from
time `t`: the member with the least observed settle time; ties go to the
earlier list position (handler attachment order, which for same-deadline
timers is also registration order). -/
def raceWinner (t : Nat) (f : Flight R E) (fs : List (Flight R E)) : Flight R E :=
  fs.foldl (fun best g => if effSettle t g < effSettle t best then g else best) f

/-- Resolution time of `Promise.all` over `l` awaited from time `t`, when no
member rejects: the time every member has settled. -/
def allResolveTime (t : Nat) (l : List (Flight R E)) : Nat :=
  l.foldl (fun acc f => max acc f.settle) t

/-- Rejection observed by `Promise.all` over `l` awaited from time `t`:
`some (v, tr)` when some member rejects, where the winning rejection is the
first one observed (least observed settle time, ties to list order). -/
def allReject (t : Nat) (l : List (Flight R E)) : Option (E × Nat) :=
  match l.filter (fun f => (outVal f.spec.out).isNone) with
  | [] => none
  | g :: gs =>
    let w := raceWinner t g gs
    match w.spec.out with
    | .error v => some (v, effSettle t w)
    | .ok _ => none

/-- Insert a flight into a list sorted by settle time, after all entries with
an equal or smaller key (stability). -/
def settleInsert (f : Flight R E) : List (Flight R E) → List (Flight R E)
  | [] => [f]
  | g :: gs => if g.settle ≤ f.settle then g :: settleInsert f gs else f :: g :: gs

/-- Stable sort of flights by settle time. -/
def settleSort (l : List (Flight R E)) : List (Flight R E) :=
  l.foldl (fun acc f => settleInsert f acc) []

/-- Contents of the `results` array of `processWithConcurrency` at time
`tEnd`: each resolving invocation appends its value (`results.push(result)`
inside `.then`) at the moment it settles, so the array holds the values of
the resolving invocations that have settled by `tEnd`, in settlement order
(registration order breaking ties, i.e. stable in start order). -/
def pushedResults (started : List (Flight R E)) (tEnd : Nat) : List R :=
  (settleSort (started.filter fun f =>
    (outVal f.spec.out).isSome && decide (f.settle ≤ tEnd))).filterMap
    (fun f => outVal f.spec.out)

/-- Outcome of one `processWithConcurrency` call: the invocations it started,
the settlement of its returned promise, and the time of that settlement. -/
structure PwcOut (R E : Type) where
  flights : List (Flight R E)
  result : Except E (List R)
  endTime : Nat
deriving Repr

/-- The `for (const item of items)` loop of `processWithConcurrency` in the
`concurrency < items.length` case.  State: remaining indexed specs, current
time `t`, the `executing` array, and all started flights.  Each iteration
starts the next item and pushes its promise; once `executing.length >=
concurrency` it awaits `Promise.race(executing)` (rethrowing a rejecting
winner) and then executes
`executing.splice(0, executing.length - executing.filter(p => p !== promise).length)`,
which removes exactly the FIRST element of `executing` — not necessarily a
settled one.  After the loop it awaits `Promise.all(executing)` over the
promises still tracked. -/
def pwcLoop (c : Nat) :
    List (Nat × ItemSpec R E) → Nat → List (Flight R E) → List (Flight R E) → PwcOut R E
  | [], t, ex, started =>
    match allReject t ex with
    | some (v, tr) => ⟨started, .error v, tr⟩
    | none => ⟨started, .ok (pushedResults started (allResolveTime t ex)), allResolveTime t ex⟩
  | (i, sp) :: rest, t, ex, started =>
    let f : Flight R E := ⟨i, t, sp⟩
    let ex' := ex ++ [f]
    let started' := started ++ [f]
    if c ≤ ex'.length then
      match ex' with
      | [] => ⟨started', .ok [], t⟩ -- unreachable: ex' ends in f
      | g :: gs =>
        let w := raceWinner t g gs
        let t' := effSettle t w
        match w.spec.out with
        | .error v => ⟨started', .error v, t'⟩
        | .ok _ => pwcLoop c rest t' (g :: gs).tail started'
    else pwcLoop c rest t ex' started'

/-- Embedding of `processWithConcurrency(items, processor, concurrency)`
started at time `t0`, with the behaviour of `processor` on the `i`-th item
given by `specs[i]`.  When `concurrency >= items.length` it is
`Promise.all(items.map(processor))`: every invocation starts at `t0`, the
call resolves with the values in item-index order once all settle, or
rejects with the first observed rejection. -/
def processWithConcurrency (specs : List (ItemSpec R E)) (c : Nat) (t0 : Nat) : PwcOut R E :=
  if specs.length ≤ c then
    let fl := specs.enum.map fun p => (⟨p.1, t0, p.2⟩ : Flight R E)
    match allReject t0 fl with
    | some (v, tr) => ⟨fl, .error v, tr⟩
    | none => ⟨fl, .ok (specs.filterMap fun sp => outVal sp.out), allResolveTime t0 fl⟩
  else
    pwcLoop c specs.enum t0 [] []

/-- Outcome of one `processBatch` call: every invocation it started (tagged
with its batch number, item index rebased to the whole input), the number of
inter-batch `sleep(delay)` suspensions performed, the settlement of the
returned promise, and its time. -/
structure RunOut (R E : Type) where
  flights : List (Nat × Flight R E)
  sleeps : Nat
  result : Except E (List R)
  endTime : Nat
deriving Repr

/-- The `for (const [i, batch] of batches.entries())` loop of `processBatch`:
run each batch through `processWithConcurrency`, append its results
(`results.push(...batchResults)` copies the array as it is when the batch's
promise resolves), rethrow a rejection, and `await sleep(delay)` when
`delay > 0 && i < batches.length - 1`. -/
def pbLoop (c delay : Nat) :
    List (List (ItemSpec R E)) → Nat → Nat → Nat →
    List (Nat × Flight R E) → List R → Nat → RunOut R E
  | [], _, _, t, fl, rs, sl => ⟨fl, sl, .ok rs, t⟩
  | b :: rest, bn, off, t, fl, rs, sl =>
    let o := processWithConcurrency b c t
    let fl' := fl ++ o.flights.map fun f => (bn, { f with idx := f.idx + off })
    match o.result with
    | .error v => ⟨fl', sl, .error v, o.endTime⟩
    | .ok br =>
      if 0 < delay && !rest.isEmpty then
        pbLoop c delay rest (bn + 1) (off + b.length) (o.endTime + delay) fl' (rs ++ br) (sl + 1)
      else
        pbLoop c delay rest (bn + 1) (off + b.length) o.endTime fl' (rs ++ br) sl

/-- The chunking loop of `splitArrayIntoChunks` for a positive chunk size,
with explicit fuel (`l.length` steps always suffice since the index advances
by `chunkSize ≥ 1` each iteration): each step takes the next `cs`-element
slice and continues past it. -/
def chunkGo (cs : Nat) : Nat → List α → List (List α)
  | 0, _ => []
  | _, [] => []
  | fu + 1, a :: l => (a :: l).take cs :: chunkGo cs fu ((a :: l).drop cs)

/-- `splitArrayIntoChunks(items, cs)` for `cs ≥ 1` (the case reachable from a
valid `processBatch` configuration); `splitFuel` below is the unrestricted
embedding of the source loop and `splitFuel_eq_chunkLoop` ties the two. -/
def chunkLoop (cs : Nat) (l : List α) : List (List α) :=
  chunkGo cs l.length l

/-- JavaScript `Array.prototype.slice(start, stop)` on a list: negative
indices count from the end, both ends are clamped to the array bounds. -/
def jsSliceInt (l : List α) (start stop : Int) : List α :=
  let len : Int := l.length
  let s := if start < 0 then max (len + start) 0 else min start len
  let e := if stop < 0 then max (len + stop) 0 else min stop len
  (l.drop s.toNat).take (e - s).toNat

/-- Fuelled embedding of the loop of `splitArrayIntoChunks`:
`for (let i = 0; i < items.length; i += chunkSize) chunks.push(items.slice(i, i + chunkSize))`.
`none` means the loop has not exited within `fu` iterations; since the index
moves by `chunkSize` each time, `chunkSize ≤ 0` keeps the condition true
forever and every fuel yields `none`. -/
def splitFuel (items : List α) (cs : Int) : Nat → Int → List (List α) → Option (List (List α))
  | 0, _, _ => none
  | fu + 1, i, acc =>
    if i < (items.length : Int) then
      splitFuel items cs fu (i + cs) (acc ++ [jsSliceInt items i (i + cs)])
    else
      some acc

/-- Embedding of `processBatch(items, processor, { batchSize, concurrency, delay })`
(`concurrency` defaults to `batchSize`, `delay` to `0`; callers of the model
pass them explicitly).  Empty input resolves at once to `[]` without invoking
the processor; otherwise the input is chunked and run batch by batch.
`batchSize ≥ 1` is assumed by this total model (see `processBatchFuel` for
the behaviour of the source chunking loop outside that range). -/
def processBatch (items : List α) (proc : α → ItemSpec R E)
    (batchSize c delay : Nat) : RunOut R E :=
  if items.length = 0 then ⟨[], 0, .ok [], 0⟩
  else pbLoop c delay ((chunkLoop batchSize items).map fun b => b.map proc) 0 0 0 [] [] 0

/-- Fuelled embedding of `processBatch` with the chunking loop taken
literally (`batchSize` any integer): `none` when the chunking loop has not
terminated within the given fuel, in which case no batch list is produced and
the processor is never invoked. -/
def processBatchFuel (items : List α) (proc : α → ItemSpec R E)
    (batchSize : Int) (c delay : Nat) (fu : Nat) : Option (RunOut R E) :=
  if items.length = 0 then some ⟨[], 0, .ok [], 0⟩
  else
    (splitFuel items batchSize fu 0 []).map fun batches =>
      pbLoop c delay (batches.map fun b => b.map proc) 0 0 0 [] [] 0

/-- Behaviour of the `wrappedProcessor` of `processBatchWithErrorHandling` on
an item whose raw processor behaves like `s`: a resolution passes through
(tagged `inl`), a rejection is caught, normalized, reported to `onError`, and
returned as an ordinary value (tagged `inr`) — the wrapped invocation always
resolves, with the same timing. -/
def wrapSpec (s : ItemSpec R JSVal) : ItemSpec (R ⊕ JSVal) JSVal where
  dur := s.dur
  out := .ok (match s.out with
    | .ok r => .inl r
    | .error v => .inr (normalizeError v))

/-- Embedding of `processBatchWithErrorHandling`: delegate to `processBatch`
with the wrapped processor. -/
def processBatchWithErrorHandling (items : List α) (proc : α → ItemSpec R JSVal)
    (batchSize c delay : Nat) : RunOut (R ⊕ JSVal) JSVal :=
  processBatch items (fun a => wrapSpec (proc a)) batchSize c delay

/-- Number of processor invocations of a run that have started but not yet
settled at instant `t`. -/
def inFlightAt (run : RunOut R E) (t : Nat) : Nat :=
  (run.flights.filter fun p => decide (p.2.start ≤ t) && decide (t < p.2.settle)).length

end BatchModel


namespace BatchModel

/-! ### Concrete scenarios used by the counterexample / failing-input theorems

Durations are in abstract ticks; values are chosen pairwise distinct so that
a result value identifies the input item that produced it (`a + 1` for item
`a`). -/

/-- Three items; item `0` is slow (10 ticks), items `1` and `2` are fast
(1 and 2 ticks); every invocation resolves. -/
def procSlowFirst : Nat → ItemSpec Nat JSVal := fun a =>
  ⟨if a = 0 then 10 else if a = 1 then 1 else 2, Except.ok (a + 1)⟩

/-- `processBatch([0,1,2], procSlowFirst, {batchSize: 3, concurrency: 2})`. -/
def runSlowFirst : RunOut Nat JSVal := processBatch [0, 1, 2] procSlowFirst 3 2 0

/-- Four items; item `1` is fast (1 tick), the rest take 100 ticks; every
invocation resolves. -/
def procOverrun : Nat → ItemSpec Nat JSVal := fun a =>
  ⟨if a = 1 then 1 else 100, Except.ok (a + 1)⟩

/-- `processBatch([0,1,2,3], procOverrun, {batchSize: 4, concurrency: 2})`. -/
def runOverrun : RunOut Nat JSVal := processBatch [0, 1, 2, 3] procOverrun 4 2 0

/-- Three items; the invocation for item `0` REJECTS after 10 ticks throwing
`new Error("boom")`; items `1` and `2` resolve after 1 and 2 ticks. -/
def procRejectFirst : Nat → ItemSpec Nat JSVal := fun a =>
  ⟨if a = 0 then 10 else if a = 1 then 1 else 2,
   if a = 0 then Except.error (JSVal.error "boom") else Except.ok (a + 1)⟩

/-- `processBatch([0,1,2], procRejectFirst, {batchSize: 3, concurrency: 2})`. -/
def runRejectFirst : RunOut Nat JSVal := processBatch [0, 1, 2] procRejectFirst 3 2 0

/-- Four items, durations 10, 1, 1, 5; every invocation resolves.  With
`batchSize = 3` the batches are `[0,1,2]` and `[3]`. -/
def procTwoBatches : Nat → ItemSpec Nat JSVal := fun a =>
  ⟨if a = 0 then 10 else if a = 3 then 5 else 1, Except.ok (a + 1)⟩

/-- `processBatch([0,1,2,3], procTwoBatches, {batchSize: 3, concurrency: 2})`. -/
def runTwoBatches : RunOut Nat JSVal := processBatch [0, 1, 2, 3] procTwoBatches 3 2 0

/-- Three items for the error-handling variant; the raw processor for item
`1` throws the string `"boom"` after 1 tick, items `0` and `2` resolve after
10 and 2 ticks. -/
def procThrowMid : Nat → ItemSpec Nat JSVal := fun a =>
  ⟨if a = 0 then 10 else if a = 1 then 1 else 2,
   if a = 1 then Except.error (JSVal.str "boom") else Except.ok (a + 1)⟩

/-- `processBatchWithErrorHandling([0,1,2], procThrowMid, {batchSize: 3, concurrency: 2})`. -/
def runThrowMid : RunOut (Nat ⊕ JSVal) JSVal :=
  processBatchWithErrorHandling [0, 1, 2] procThrowMid 3 2 0

end BatchModel

open BatchModel

/-- Claim C1, counterexample: with items `[0,1,2]`, `batchSize = 3`,
`concurrency = 2` and durations `10, 1, 2`, `processBatch` resolves to
`[2, 3]` — the result of input index 1 sits at output index 0 — and not to
the input-ordered sequence `[1, 2, 3]`, so the output does NOT place the
result of input `i` at output `i` when concurrency is below the batch
length. -/
theorem C1_counterexample :
    runSlowFirst.result = Except.ok [2, 3] ∧
      runSlowFirst.result ≠ Except.ok [0 + 1, 1 + 1, 2 + 1] := by
  constructor
  · rfl
  · decide

/-- Claim C2, failing run: same scenario as C1 — the resolved sequence has
length 2 although the input has length 3, because the mislabelled `splice`
drops the still-pending promise of item 0 from `executing`, and the final
`Promise.all(executing)` no longer awaits it. -/
theorem C2_length_failing :
    runSlowFirst.result = Except.ok [2, 3] ∧
      ([2, 3] : List Nat).length = 2 ∧ ([0, 1, 2] : List Nat).length = 3 := by
  exact ⟨rfl, rfl, rfl⟩

/-- Claim C3, failing run: with items `[0,1,2,3]`, `concurrency = 2`,
`batchSize = 4` and durations `100, 1, 100, 100`, at instant `t = 50` three
processor invocations (items 0, 2, 3) are in flight, exceeding
`min(concurrency, batch length) = 2`: after the fast item 1 settles, the
`splice` removes the still-pending item 0 from `executing`, and the next
`Promise.race` returns immediately on the already-settled item 1, admitting
two more items while item 0 still runs. -/
theorem C3_inflight_failing :
    inFlightAt runOverrun 50 = 3 ∧ Nat.min 2 4 = 2 := by
  exact ⟨rfl, rfl⟩

/-- Claim C4, failing run: the processor REJECTS for item 0 (after 10 ticks),
yet `processBatch` RESOLVES, with the partial sequence `[2, 3]`: the
rejecting promise was dropped from `executing` by the `splice`, so no
`await` ever observes the rejection. -/
theorem C4_failfast_failing :
    (procRejectFirst 0).out = Except.error (JSVal.error "boom") ∧
      runRejectFirst.result = Except.ok [2, 3] := by
  exact ⟨rfl, rfl⟩

/-- Claim C5, counterexample: in `processBatchWithErrorHandling` over
`[0,1,2]` with `concurrency = 2 <` batch length `3`, the processor for item
1 throws; the call resolves to `[Error("boom"), 3]`: the captured error
occupies output index 0 — not item 1's entry — and item 0's result is
missing altogether. -/
theorem C5_counterexample :
    runThrowMid.result =
        Except.ok [Sum.inr (JSVal.error "boom"), Sum.inl 3] ∧
      runThrowMid.result ≠
        Except.ok [Sum.inl 1, Sum.inr (JSVal.error "boom"), Sum.inl 3] := by
  constructor
  · rfl
  · decide

/-- Claim C6, counterexample: in the C1 scenario the call resolves at time 3
while the invocation for item 0 (started at 0) only settles at time 10: a
started processor invocation outlives the `processBatch` call. -/
theorem C6_counterexample :
    (runSlowFirst.flights.map fun p => p.2.settle) = [10, 1, 3] ∧
      runSlowFirst.endTime = 3 := by
  exact ⟨rfl, rfl⟩

/-- Claim C7, failing run: with batches `[0,1,2]` and `[3]` (`batchSize = 3`,
`concurrency = 2`, durations `10, 1, 1, 5`), the invocation of item 3 —
batch 1 — starts at time 2, while item 0 of batch 0 settles only at time 10:
batch `N+1` starts before every item of batch `N` has settled. -/
theorem C7_sequential_failing :
    (runTwoBatches.flights.map fun p => (p.1, p.2.start, p.2.settle)) =
      [(0, 0, 10), (0, 0, 1), (0, 1, 2), (1, 2, 7)] := by
  rfl

namespace BatchModel

/-! ### Structural lemmas about the chunking loop -/

theorem chunkGo_nil (cs fu : Nat) : chunkGo cs fu ([] : List α) = [] := by
  cases fu <;> rfl

theorem chunkGo_fuel {cs : Nat} (hcs : 1 ≤ cs) :
    ∀ (fu1 fu2 : Nat) (l : List α), l.length ≤ fu1 → l.length ≤ fu2 →
      chunkGo cs fu1 l = chunkGo cs fu2 l := by
  intro fu1
  induction fu1 with
  | zero =>
    intro fu2 l hl _
    have h0 : l = [] := List.eq_nil_of_length_eq_zero (Nat.le_zero.mp hl)
    subst h0
    rw [chunkGo_nil, chunkGo_nil]
  | succ fu1 ih =>
    intro fu2 l hl1 hl2
    cases l with
    | nil => rw [chunkGo_nil, chunkGo_nil]
    | cons a l =>
      cases fu2 with
      | zero => simp only [List.length_cons] at hl2; omega
      | succ fu2 =>
        have hdrop1 : ((a :: l).drop cs).length ≤ fu1 := by
          rw [List.length_drop]
          simp only [List.length_cons] at hl1 ⊢
          omega
        have hdrop2 : ((a :: l).drop cs).length ≤ fu2 := by
          rw [List.length_drop]
          simp only [List.length_cons] at hl2 ⊢
          omega
        have h1 : chunkGo cs (fu1 + 1) (a :: l) =
            (a :: l).take cs :: chunkGo cs fu1 ((a :: l).drop cs) := rfl
        have h2 : chunkGo cs (fu2 + 1) (a :: l) =
            (a :: l).take cs :: chunkGo cs fu2 ((a :: l).drop cs) := rfl
        rw [h1, h2, ih fu2 ((a :: l).drop cs) hdrop1 hdrop2]

theorem chunkGo_eq_chunkLoop {cs : Nat} (hcs : 1 ≤ cs) (fu : Nat) (l : List α)
    (hl : l.length ≤ fu) : chunkGo cs fu l = chunkLoop cs l :=
  chunkGo_fuel hcs fu l.length l hl le_rfl

theorem chunkGo_flatten {cs : Nat} (hcs : 1 ≤ cs) :
    ∀ (fu : Nat) (l : List α), l.length ≤ fu → (chunkGo cs fu l).flatten = l := by
  intro fu
  induction fu with
  | zero =>
    intro l hl
    have h0 : l = [] := List.eq_nil_of_length_eq_zero (Nat.le_zero.mp hl)
    subst h0
    rfl
  | succ fu ih =>
    intro l hl
    cases l with
    | nil => rw [chunkGo_nil]; rfl
    | cons a l =>
      have hdrop : ((a :: l).drop cs).length ≤ fu := by
        rw [List.length_drop]
        simp only [List.length_cons]
        simp only [List.length_cons] at hl
        omega
      have h1 : chunkGo cs (fu + 1) (a :: l) =
          (a :: l).take cs :: chunkGo cs fu ((a :: l).drop cs) := rfl
      rw [h1, List.flatten_cons, ih _ hdrop, List.take_append_drop]

theorem chunkLoop_flatten {cs : Nat} (hcs : 1 ≤ cs) (l : List α) :
    (chunkLoop cs l).flatten = l :=
  chunkGo_flatten hcs l.length l le_rfl

theorem chunkGo_mem_length {cs : Nat} :
    ∀ (fu : Nat) (l : List α) (b : List α), b ∈ chunkGo cs fu l → b.length ≤ cs := by
  intro fu
  induction fu with
  | zero =>
    intro l b hb
    have h0 : chunkGo cs 0 l = [] := by cases l <;> rfl
    rw [h0] at hb
    cases hb
  | succ fu ih =>
    intro l b hb
    cases l with
    | nil => rw [chunkGo_nil] at hb; cases hb
    | cons a l =>
      have h1 : chunkGo cs (fu + 1) (a :: l) =
          (a :: l).take cs :: chunkGo cs fu ((a :: l).drop cs) := rfl
      rw [h1] at hb
      rcases List.mem_cons.mp hb with h | h
      · rw [h, List.length_take]
        exact inf_le_left
      · exact ih _ _ h

theorem chunkLoop_mem_length {cs : Nat} {l b : List α} (hb : b ∈ chunkLoop cs l) :
    b.length ≤ cs :=
  chunkGo_mem_length l.length l b hb

theorem chunkLoop_mem_mem {cs : Nat} (hcs : 1 ≤ cs) {l b : List α} {a : α}
    (hb : b ∈ chunkLoop cs l) (ha : a ∈ b) : a ∈ l := by
  have : a ∈ (chunkLoop cs l).flatten := List.mem_flatten.mpr ⟨b, hb, ha⟩
  rwa [chunkLoop_flatten hcs] at this

/-! ### Lemmas about the promise-combinator helpers -/

theorem le_allResolveTime (l : List (Flight R E)) :
    ∀ t : Nat, t ≤ allResolveTime t l := by
  induction l with
  | nil => intro t; exact le_rfl
  | cons f l ih =>
    intro t
    exact le_trans (le_max_left t f.settle) (ih (max t f.settle))

theorem settle_le_allResolveTime {l : List (Flight R E)} {f : Flight R E} (hf : f ∈ l) :
    ∀ t : Nat, f.settle ≤ allResolveTime t l := by
  induction l with
  | nil => cases hf
  | cons g l ih =>
    intro t
    rcases List.mem_cons.mp hf with h | h
    · subst h
      exact le_trans (le_max_right t f.settle) (le_allResolveTime l (max t f.settle))
    · exact ih h (max t g.settle)

theorem raceWinner_mem (t : Nat) (f : Flight R E) (fs : List (Flight R E)) :
    raceWinner t f fs ∈ f :: fs := by
  induction fs generalizing f with
  | nil => exact List.mem_singleton.mpr rfl
  | cons g gs ih =>
    have h1 : raceWinner t f (g :: gs) =
        raceWinner t (if effSettle t g < effSettle t f then g else f) gs := rfl
    rw [h1]
    rcases List.mem_cons.mp (ih (if effSettle t g < effSettle t f then g else f)) with h | h
    · rw [h]
      by_cases hc : effSettle t g < effSettle t f
      · rw [if_pos hc]; exact List.mem_cons_of_mem _ (List.mem_cons_self _ _)
      · rw [if_neg hc]; exact List.mem_cons_self _ _
    · exact List.mem_cons_of_mem _ (List.mem_cons_of_mem _ h)

theorem allReject_eq_none {l : List (Flight R E)} (t : Nat)
    (h : ∀ f ∈ l, (outVal f.spec.out).isSome = true) : allReject t l = none := by
  have hfil : l.filter (fun f => (outVal f.spec.out).isNone) = [] := by
    refine List.filter_eq_nil_iff.mpr fun f hf => ?_
    have hs := h f hf
    cases hx : outVal f.spec.out with
    | none => rw [hx] at hs; simp at hs
    | some r => simp [hx]
  unfold allReject
  rw [hfil]

end BatchModel

namespace BatchModel

theorem enum_snd_mem {l : List α} {p : Nat × α} (hp : p ∈ l.enum) : p.2 ∈ l := by
  obtain ⟨i, x⟩ := p
  have h1 : l[i]? = some x := List.mk_mem_enum_iff_getElem?.mp hp
  obtain ⟨hlt, hx⟩ := List.getElem?_eq_some_iff.mp h1
  exact hx ▸ List.getElem_mem hlt

/-- With a processor that never rejects, the concurrency loop never observes
a rejection, so it resolves. -/
theorem pwcLoop_allok (c : Nat) :
    ∀ (rest : List (Nat × ItemSpec R E)) (t : Nat) (ex started : List (Flight R E)),
      (∀ p ∈ rest, (outVal p.2.out).isSome = true) →
      (∀ f ∈ ex, (outVal f.spec.out).isSome = true) →
      ∃ rs, (pwcLoop c rest t ex started).result = Except.ok rs := by
  intro rest
  induction rest with
  | nil =>
    intro t ex started _ hex
    simp only [pwcLoop]
    rw [allReject_eq_none t hex]
    exact ⟨_, rfl⟩
  | cons p rest ih =>
    intro t ex started hrest hex
    obtain ⟨i, sp⟩ := p
    have hf : (outVal sp.out).isSome = true := hrest (i, sp) (List.mem_cons_self _ _)
    simp only [pwcLoop]
    by_cases hlen : c ≤ (ex ++ [(⟨i, t, sp⟩ : Flight R E)]).length
    · rw [if_pos hlen]
      split
      · next heq => simp at heq
      · next g gs heq =>
        have hallex : ∀ x ∈ g :: gs, (outVal x.spec.out).isSome = true := by
          rw [← heq]
          intro x hx
          rcases List.mem_append.mp hx with h | h
          · exact hex x h
          · rw [List.mem_singleton.mp h]; exact hf
        have hwok := hallex _ (raceWinner_mem t g gs)
        split
        · next v hw => rw [hw] at hwok; simp [outVal] at hwok
        · next r hw =>
          exact ih _ _ _ (fun q hq => hrest q (List.mem_cons_of_mem _ hq))
            (fun x hx => hallex x (List.mem_cons_of_mem _ hx))
    · rw [if_neg hlen]
      refine ih _ _ _ (fun q hq => hrest q (List.mem_cons_of_mem _ hq)) ?_
      intro x hx
      rcases List.mem_append.mp hx with h | h
      · exact hex x h
      · rw [List.mem_singleton.mp h]; exact hf

/-- With a processor that never rejects, `processWithConcurrency` resolves. -/
theorem pwc_allok (specs : List (ItemSpec R E)) (c t0 : Nat)
    (h : ∀ sp ∈ specs, (outVal sp.out).isSome = true) :
    ∃ rs, (processWithConcurrency specs c t0).result = Except.ok rs := by
  simp only [processWithConcurrency]
  by_cases hc : specs.length ≤ c
  · rw [if_pos hc]
    have hfl : ∀ f ∈ specs.enum.map (fun p => (⟨p.1, t0, p.2⟩ : Flight R E)),
        (outVal f.spec.out).isSome = true := by
      intro f hfm
      obtain ⟨p, hp, rfl⟩ := List.mem_map.mp hfm
      exact h p.2 (enum_snd_mem hp)
    rw [allReject_eq_none t0 hfl]
    exact ⟨_, rfl⟩
  · rw [if_neg hc]
    exact pwcLoop_allok c specs.enum t0 [] []
      (fun p hp => h p.2 (enum_snd_mem hp)) (fun f hfm => absurd hfm (List.not_mem_nil f))

/-- In the `concurrency >= items.length` branch the started invocations are
exactly one per item, all started at the call time. -/
theorem pwc_allpath_flights (specs : List (ItemSpec R E)) (c t0 : Nat)
    (hc : specs.length ≤ c) :
    (processWithConcurrency specs c t0).flights =
      specs.enum.map fun p => (⟨p.1, t0, p.2⟩ : Flight R E) := by
  simp only [processWithConcurrency]
  rw [if_pos hc]
  cases hr : allReject t0 (specs.enum.map fun p => (⟨p.1, t0, p.2⟩ : Flight R E)) with
  | none => rfl
  | some vt => obtain ⟨v, tr⟩ := vt; rfl

/-- In the `concurrency >= items.length` branch, with a never-rejecting
processor, `Promise.all` resolves with the values in item order at the time
every invocation has settled. -/
theorem pwc_allpath_ok (specs : List (ItemSpec R E)) (c t0 : Nat)
    (hc : specs.length ≤ c) (hok : ∀ sp ∈ specs, (outVal sp.out).isSome = true) :
    processWithConcurrency specs c t0 =
      ⟨specs.enum.map fun p => (⟨p.1, t0, p.2⟩ : Flight R E),
       Except.ok (specs.filterMap fun sp => outVal sp.out),
       allResolveTime t0 (specs.enum.map fun p => (⟨p.1, t0, p.2⟩ : Flight R E))⟩ := by
  simp only [processWithConcurrency]
  rw [if_pos hc]
  have hfl : ∀ f ∈ specs.enum.map (fun p => (⟨p.1, t0, p.2⟩ : Flight R E)),
      (outVal f.spec.out).isSome = true := by
    intro f hfm
    obtain ⟨p, hp, rfl⟩ := List.mem_map.mp hfm
    exact hok p.2 (enum_snd_mem hp)
  rw [allReject_eq_none t0 hfl]

/-- In the `concurrency >= items.length` branch, a resolving call returns at
the time every invocation has settled. -/
theorem pwc_allpath_resolved_endTime (specs : List (ItemSpec R E)) (c t0 : Nat)
    (hc : specs.length ≤ c) {rs : List R}
    (hres : (processWithConcurrency specs c t0).result = Except.ok rs) :
    (processWithConcurrency specs c t0).endTime =
      allResolveTime t0 (specs.enum.map fun p => (⟨p.1, t0, p.2⟩ : Flight R E)) := by
  simp only [processWithConcurrency] at hres ⊢
  rw [if_pos hc] at hres ⊢
  cases hr : allReject t0 (specs.enum.map fun p => (⟨p.1, t0, p.2⟩ : Flight R E)) with
  | none => rfl
  | some vt =>
    obtain ⟨v, tr⟩ := vt
    rw [hr] at hres
    exact absurd hres (by simp)

theorem mem_allpath_flights {specs : List (ItemSpec R E)} {t0 : Nat} {f : Flight R E}
    (hf : f ∈ specs.enum.map fun p => (⟨p.1, t0, p.2⟩ : Flight R E)) :
    f.start = t0 ∧ f.spec ∈ specs := by
  obtain ⟨p, hp, rfl⟩ := List.mem_map.mp hf
  exact ⟨rfl, enum_snd_mem hp⟩

end BatchModel

namespace BatchModel

/-- With never-rejecting processors and every batch within the concurrency
bound, the batch loop resolves with the per-item values of all batches, in
order, appended to the accumulator. -/
theorem pbLoop_allok_result (c delay : Nat) :
    ∀ (batches : List (List (ItemSpec R E))) (bn off t : Nat)
      (fl : List (Nat × Flight R E)) (rs : List R) (sl : Nat),
      (∀ b ∈ batches, ∀ sp ∈ b, (outVal sp.out).isSome = true) →
      (∀ b ∈ batches, b.length ≤ c) →
      (pbLoop c delay batches bn off t fl rs sl).result =
        Except.ok (rs ++ batches.flatten.filterMap fun sp => outVal sp.out) := by
  intro batches
  induction batches with
  | nil =>
    intro bn off t fl rs sl _ _
    simp [pbLoop]
  | cons b rest ih =>
    intro bn off t fl rs sl hok hlen
    have hokb := hok b (List.mem_cons_self _ _)
    have hlenb := hlen b (List.mem_cons_self _ _)
    have hokr : ∀ b' ∈ rest, ∀ sp ∈ b', (outVal sp.out).isSome = true :=
      fun b' hb' => hok b' (List.mem_cons_of_mem _ hb')
    have hlenr : ∀ b' ∈ rest, b'.length ≤ c :=
      fun b' hb' => hlen b' (List.mem_cons_of_mem _ hb')
    simp only [pbLoop, pwc_allpath_ok b c t hlenb hokb]
    by_cases hud : (0 < delay && !rest.isEmpty) = true
    · rw [if_pos hud, ih _ _ _ _ _ _ hokr hlenr]
      simp [List.filterMap_append, List.append_assoc]
    · rw [if_neg hud, ih _ _ _ _ _ _ hokr hlenr]
      simp [List.filterMap_append, List.append_assoc]

/-- With never-rejecting processors the batch loop performs one inter-batch
sleep per batch except the last when `delay > 0`, and none when `delay = 0`. -/
theorem pbLoop_allok_sleeps (c delay : Nat) :
    ∀ (batches : List (List (ItemSpec R E))) (bn off t : Nat)
      (fl : List (Nat × Flight R E)) (rs : List R) (sl : Nat),
      (∀ b ∈ batches, ∀ sp ∈ b, (outVal sp.out).isSome = true) →
      (pbLoop c delay batches bn off t fl rs sl).sleeps =
        sl + (if 0 < delay then batches.length - 1 else 0) := by
  intro batches
  induction batches with
  | nil =>
    intro bn off t fl rs sl _
    simp [pbLoop]
  | cons b rest ih =>
    intro bn off t fl rs sl hok
    obtain ⟨rsb, hrsb⟩ := pwc_allok b c t (hok b (List.mem_cons_self _ _))
    have hokr : ∀ b' ∈ rest, ∀ sp ∈ b', (outVal sp.out).isSome = true :=
      fun b' hb' => hok b' (List.mem_cons_of_mem _ hb')
    simp only [pbLoop, hrsb]
    cases rest with
    | nil =>
      have hcond : (0 < delay && !(List.isEmpty ([] : List (List (ItemSpec R E))))) = false := by
        simp
      rw [hcond, if_neg (by simp)]
      rw [ih _ _ _ _ _ _ hokr]
      simp [pbLoop]
    | cons b2 rest2 =>
      have hlen1 : (0 : Nat) < (b2 :: rest2).length := by simp
      by_cases hd : 0 < delay
      · have hcond : (0 < delay && !(List.isEmpty (b2 :: rest2))) = true := by
          simp [hd, List.isEmpty]
        rw [if_pos hcond, ih _ _ _ _ _ _ hokr]
        simp only [List.length_cons, if_pos hd]
        omega
      · have hcond : (0 < delay && !(List.isEmpty (b2 :: rest2))) = false := by
          simp [hd]
        rw [if_neg (by rw [hcond]; exact Bool.false_ne_true), ih _ _ _ _ _ _ hokr]
        simp only [List.length_cons, if_neg hd]

end BatchModel

namespace BatchModel

theorem settle_rebase (f : Flight R E) (off : Nat) :
    ({ f with idx := f.idx + off } : Flight R E).settle = f.settle := rfl

/-- With never-rejecting processors and every batch within the concurrency
bound, every invocation started by the batch loop settles no later than the
time at which the loop's returned promise resolves. -/
theorem pbLoop_settle_le (c delay : Nat) :
    ∀ (batches : List (List (ItemSpec R E))) (bn off t : Nat)
      (fl : List (Nat × Flight R E)) (rs : List R) (sl : Nat),
      (∀ b ∈ batches, ∀ sp ∈ b, (outVal sp.out).isSome = true) →
      (∀ b ∈ batches, b.length ≤ c) →
      (∀ p ∈ fl, (p : Nat × Flight R E).2.settle ≤ t) →
      ∀ q ∈ (pbLoop c delay batches bn off t fl rs sl).flights,
        q.2.settle ≤ (pbLoop c delay batches bn off t fl rs sl).endTime := by
  intro batches
  induction batches with
  | nil =>
    intro bn off t fl rs sl _ _ hfl
    simp only [pbLoop]
    exact hfl
  | cons b rest ih =>
    intro bn off t fl rs sl hok hlen hfl
    have hokb := hok b (List.mem_cons_self _ _)
    have hlenb := hlen b (List.mem_cons_self _ _)
    have hokr : ∀ b' ∈ rest, ∀ sp ∈ b', (outVal sp.out).isSome = true :=
      fun b' hb' => hok b' (List.mem_cons_of_mem _ hb')
    have hlenr : ∀ b' ∈ rest, b'.length ≤ c :=
      fun b' hb' => hlen b' (List.mem_cons_of_mem _ hb')
    simp only [pbLoop, pwc_allpath_ok b c t hlenb hokb]
    have hfl' : ∀ p ∈ fl ++ ((b.enum.map fun p => (⟨p.1, t, p.2⟩ : Flight R E)).map
        fun f => (bn, { f with idx := f.idx + off })),
        (p : Nat × Flight R E).2.settle ≤
          allResolveTime t (b.enum.map fun p => (⟨p.1, t, p.2⟩ : Flight R E)) := by
      intro p hp
      rcases List.mem_append.mp hp with h | h
      · exact le_trans (hfl p h) (le_allResolveTime _ t)
      · obtain ⟨f, hfm, rfl⟩ := List.mem_map.mp h
        rw [settle_rebase]
        exact settle_le_allResolveTime hfm t
    by_cases hud : (0 < delay && !rest.isEmpty) = true
    · rw [if_pos hud]
      exact ih _ _ _ _ _ _ hokr hlenr
        (fun p hp => le_trans (hfl' p hp) (Nat.le_add_right _ delay))
    · rw [if_neg hud]
      exact ih _ _ _ _ _ _ hokr hlenr hfl'

/-- Provided every batch fits under the concurrency bound (the
`Promise.all` path), an invocation of a later batch never starts before
every invocation of an earlier batch has settled. -/
theorem pbLoop_sequential (c delay : Nat) :
    ∀ (batches : List (List (ItemSpec R E))) (bn off t : Nat)
      (fl : List (Nat × Flight R E)) (rs : List R) (sl : Nat),
      (∀ b ∈ batches, b.length ≤ c) →
      (∀ p ∈ fl, (p : Nat × Flight R E).2.settle ≤ t) →
      (∀ p ∈ fl, (p : Nat × Flight R E).1 < bn) →
      (∀ p ∈ fl, ∀ q ∈ fl, (p : Nat × Flight R E).1 < (q : Nat × Flight R E).1 →
        p.2.settle ≤ q.2.start) →
      ∀ p ∈ (pbLoop c delay batches bn off t fl rs sl).flights,
        ∀ q ∈ (pbLoop c delay batches bn off t fl rs sl).flights,
          (p : Nat × Flight R E).1 < (q : Nat × Flight R E).1 →
            p.2.settle ≤ q.2.start := by
  intro batches
  induction batches with
  | nil =>
    intro bn off t fl rs sl _ _ _ hprev
    simp only [pbLoop]
    exact hprev
  | cons b rest ih =>
    intro bn off t fl rs sl hlen hfl hbn hprev
    have hlenb := hlen b (List.mem_cons_self _ _)
    have hlenr : ∀ b' ∈ rest, b'.length ≤ c :=
      fun b' hb' => hlen b' (List.mem_cons_of_mem _ hb')
    -- characterize the new flights of this batch
    have hnew : ∀ q ∈ ((processWithConcurrency b c t).flights.map
        fun f => (bn, { f with idx := f.idx + off })),
        (q : Nat × Flight R E).1 = bn ∧ q.2.start = t := by
      intro q hq
      obtain ⟨f, hfm, rfl⟩ := List.mem_map.mp hq
      rw [pwc_allpath_flights b c t hlenb] at hfm
      exact ⟨rfl, (mem_allpath_flights hfm).1⟩
    have hpairs : ∀ p ∈ fl ++ ((processWithConcurrency b c t).flights.map
          fun f => (bn, { f with idx := f.idx + off })),
        ∀ q ∈ fl ++ ((processWithConcurrency b c t).flights.map
          fun f => (bn, { f with idx := f.idx + off })),
        (p : Nat × Flight R E).1 < (q : Nat × Flight R E).1 → p.2.settle ≤ q.2.start := by
      intro p hp q hq hpq
      rcases List.mem_append.mp hp with hpo | hpn
      · rcases List.mem_append.mp hq with hqo | hqn
        · exact hprev p hpo q hqo hpq
        · rw [(hnew q hqn).2]
          exact hfl p hpo
      · rcases List.mem_append.mp hq with hqo | hqn
        · exact absurd hpq (by have h1 := (hnew p hpn).1; have h2 := hbn q hqo; omega)
        · exact absurd hpq (by have h1 := (hnew p hpn).1; have h2 := (hnew q hqn).1; omega)
    simp only [pbLoop]
    split
    · next v heq => exact hpairs
    · next br heq =>
      have hend := pwc_allpath_resolved_endTime b c t hlenb heq
      have hsettle : ∀ p ∈ fl ++ ((processWithConcurrency b c t).flights.map
            fun f => (bn, { f with idx := f.idx + off })),
          (p : Nat × Flight R E).2.settle ≤ (processWithConcurrency b c t).endTime := by
        intro p hp
        rcases List.mem_append.mp hp with h | h
        · rw [hend]
          exact le_trans (hfl p h) (le_allResolveTime _ t)
        · obtain ⟨f, hfm, rfl⟩ := List.mem_map.mp h
          rw [settle_rebase, hend]
          rw [pwc_allpath_flights b c t hlenb] at hfm
          exact settle_le_allResolveTime hfm t
      have hbn' : ∀ p ∈ fl ++ ((processWithConcurrency b c t).flights.map
            fun f => (bn, { f with idx := f.idx + off })),
          (p : Nat × Flight R E).1 < bn + 1 := by
        intro p hp
        rcases List.mem_append.mp hp with h | h
        · exact Nat.lt_succ_of_lt (hbn p h)
        · rw [(hnew p h).1]; exact Nat.lt_succ_self bn
      by_cases hud : (0 < delay && !rest.isEmpty) = true
      · rw [if_pos hud]
        exact ih _ _ _ _ _ _ hlenr
          (fun p hp => le_trans (hsettle p hp) (Nat.le_add_right _ delay)) hbn' hpairs
      · rw [if_neg hud]
        exact ih _ _ _ _ _ _ hlenr hsettle hbn' hpairs

end BatchModel

namespace BatchModel

theorem filterMap_allSome_length {α β : Type} {f : α → Option β} :
    ∀ l : List α, (∀ a ∈ l, (f a).isSome = true) → (l.filterMap f).length = l.length := by
  intro l
  induction l with
  | nil => intro _; rfl
  | cons a l ih =>
    intro h
    obtain ⟨b, hb⟩ := Option.isSome_iff_exists.mp (h a (List.mem_cons_self _ _))
    simp only [List.filterMap_cons, hb, List.length_cons]
    rw [ih fun x hx => h x (List.mem_cons_of_mem _ hx)]

theorem filterMap_allSome_getElem? {α β : Type} {f : α → Option β} :
    ∀ l : List α, (∀ a ∈ l, (f a).isSome = true) → ∀ i : Nat,
      (l.filterMap f)[i]? = l[i]?.bind f := by
  intro l
  induction l with
  | nil => intro _ i; simp
  | cons a l ih =>
    intro h i
    obtain ⟨b, hb⟩ := Option.isSome_iff_exists.mp (h a (List.mem_cons_self _ _))
    cases i with
    | zero => simp [List.filterMap_cons, hb]
    | succ i =>
      simp only [List.filterMap_cons, hb, List.getElem?_cons_succ]
      exact ih (fun x hx => h x (List.mem_cons_of_mem _ hx)) i

/-- With never-rejecting processors the batch loop resolves, whatever the
concurrency bound. -/
theorem pbLoop_allok_resolves (c delay : Nat) :
    ∀ (batches : List (List (ItemSpec R E))) (bn off t : Nat)
      (fl : List (Nat × Flight R E)) (rs : List R) (sl : Nat),
      (∀ b ∈ batches, ∀ sp ∈ b, (outVal sp.out).isSome = true) →
      ∃ res, (pbLoop c delay batches bn off t fl rs sl).result = Except.ok res := by
  intro batches
  induction batches with
  | nil =>
    intro bn off t fl rs sl _
    exact ⟨rs, rfl⟩
  | cons b rest ih =>
    intro bn off t fl rs sl hok
    obtain ⟨rsb, hrsb⟩ := pwc_allok b c t (hok b (List.mem_cons_self _ _))
    have hokr : ∀ b' ∈ rest, ∀ sp ∈ b', (outVal sp.out).isSome = true :=
      fun b' hb' => hok b' (List.mem_cons_of_mem _ hb')
    simp only [pbLoop, hrsb]
    by_cases hud : (0 < delay && !rest.isEmpty) = true
    · rw [if_pos hud]; exact ih _ _ _ _ _ _ hokr
    · rw [if_neg hud]; exact ih _ _ _ _ _ _ hokr

theorem chunks_map_ok {items : List α} {proc : α → ItemSpec R E} {bs : Nat}
    (hbs : 1 ≤ bs) (hok : ∀ a ∈ items, (outVal (proc a).out).isSome = true) :
    ∀ b ∈ (chunkLoop bs items).map (fun ch => ch.map proc),
      ∀ sp ∈ b, (outVal sp.out).isSome = true := by
  intro b hb sp hsp
  obtain ⟨ch, hch, rfl⟩ := List.mem_map.mp hb
  obtain ⟨a, ha, rfl⟩ := List.mem_map.mp hsp
  exact hok a (chunkLoop_mem_mem hbs hch ha)

theorem chunks_map_len {items : List α} {proc : α → ItemSpec R E} {bs c : Nat}
    (hc : bs ≤ c) :
    ∀ b ∈ (chunkLoop bs items).map (fun ch => ch.map proc), b.length ≤ c := by
  intro b hb
  obtain ⟨ch, hch, rfl⟩ := List.mem_map.mp hb
  rw [List.length_map]
  exact le_trans (chunkLoop_mem_length hch) hc

/-- With a valid configuration (`1 ≤ batchSize ≤ concurrency`, which includes
the default `concurrency = batchSize`) and a never-rejecting processor,
`processBatch` resolves with exactly the per-item values in input order. -/
theorem pb_allpath_result (items : List α) (proc : α → ItemSpec R E)
    (bs c delay : Nat) (hbs : 1 ≤ bs) (hc : bs ≤ c)
    (hok : ∀ a ∈ items, (outVal (proc a).out).isSome = true) :
    (processBatch items proc bs c delay).result =
      Except.ok (items.filterMap fun a => outVal (proc a).out) := by
  unfold processBatch
  by_cases h0 : items.length = 0
  · rw [if_pos h0]
    have h1 : items = [] := List.eq_nil_of_length_eq_zero h0
    subst h1
    rfl
  · rw [if_neg h0]
    rw [pbLoop_allok_result c delay _ 0 0 0 [] [] 0 (chunks_map_ok hbs hok)
      (chunks_map_len hc)]
    congr 1
    rw [List.nil_append, ← List.map_flatten, chunkLoop_flatten hbs, List.filterMap_map]
    rfl

end BatchModel

namespace BatchModel

theorem splitFuel_none (items : List α) (cs : Int) (hne : items ≠ []) (hcs : cs ≤ 0) :
    ∀ (fu : Nat) (i : Int), i ≤ 0 → ∀ acc, splitFuel items cs fu i acc = none := by
  intro fu
  induction fu with
  | zero => intro i _ acc; rfl
  | succ fu ih =>
    intro i hi acc
    have hlen : (0 : Int) < (items.length : Int) := by
      have h1 := List.length_pos.mpr hne
      exact_mod_cast h1
    simp only [splitFuel]
    rw [if_pos (lt_of_le_of_lt hi hlen)]
    exact ih (i + cs) (by omega) _

end BatchModel

/-- Claim C1 (amended): the input-order guarantee holds whenever every batch
fits under the concurrency bound — i.e. `batchSize ≤ concurrency`, which
includes the default configuration `concurrency = batchSize` — and the
processor resolves on every item: then the sequence `processBatch` resolves
to has the result of the item at input index `i` at output index `i`.  (When
concurrency is strictly below the batch length, results are pushed in
completion order and the guarantee fails, see the counterexample.) -/
theorem C1_order_amended {α R E : Type} (items : List α) (proc : α → ItemSpec R E)
    (bs c delay : Nat) (hbs : 1 ≤ bs) (hc : bs ≤ c)
    (hok : ∀ a ∈ items, (outVal (proc a).out).isSome = true) :
    ∃ rs, (processBatch items proc bs c delay).result = Except.ok rs ∧
      rs.length = items.length ∧
      ∀ i : Nat, rs[i]? = items[i]?.bind fun a => outVal (proc a).out :=
  ⟨_, pb_allpath_result items proc bs c delay hbs hc hok,
    filterMap_allSome_length items hok,
    filterMap_allSome_getElem? items hok⟩

/-- Witness for C1 (amended) at items `[10, 20, 30]`, processor doubling its
item, `batchSize = concurrency = 2`, `delay = 5`. -/
theorem C1_order_amended_witness :
    (1 ≤ 2 ∧ 2 ≤ 2) ∧
      ∃ rs, (processBatch [10, 20, 30]
          (fun a => (⟨a, Except.ok (a * 2)⟩ : ItemSpec Nat JSVal)) 2 2 5).result =
            Except.ok rs ∧
        rs.length = ([10, 20, 30] : List Nat).length ∧
        ∀ i : Nat, rs[i]? = ([10, 20, 30] : List Nat)[i]?.bind
          fun a => outVal ((⟨a, Except.ok (a * 2)⟩ : ItemSpec Nat JSVal)).out :=
  ⟨⟨by decide, by decide⟩,
    C1_order_amended [10, 20, 30] (fun a => ⟨a, Except.ok (a * 2)⟩) 2 2 5
      (by decide) (by decide) (fun a _ => rfl)⟩

/-- Claim C5 (amended): `processBatchWithErrorHandling` indeed never rejects —
every processor failure is caught by the wrapped processor and turned into a
captured error value — and when `batchSize ≤ concurrency` (in particular in
the default configuration) the captured value occupies exactly the failing
item's entry of the resolved sequence.  (When concurrency is strictly below
the batch length the captured error can sit at a different index, or be
dropped, see the counterexample.) -/
theorem C5_no_reject_amended {α R : Type} (items : List α) (proc : α → ItemSpec R JSVal)
    (bs c delay : Nat) (hbs : 1 ≤ bs) :
    (∃ rs, (processBatchWithErrorHandling items proc bs c delay).result = Except.ok rs) ∧
    (bs ≤ c → (processBatchWithErrorHandling items proc bs c delay).result =
      Except.ok (items.map fun a => match (proc a).out with
        | .ok r => Sum.inl r
        | .error v => Sum.inr (normalizeError v))) := by
  have hwrap : ∀ a ∈ items, (outVal (wrapSpec (proc a)).out).isSome = true :=
    fun a _ => rfl
  constructor
  · unfold processBatchWithErrorHandling processBatch
    by_cases h0 : items.length = 0
    · rw [if_pos h0]; exact ⟨[], rfl⟩
    · rw [if_neg h0]
      refine pbLoop_allok_resolves c delay _ 0 0 0 [] [] 0 ?_
      intro b hb sp hsp
      obtain ⟨ch, _, rfl⟩ := List.mem_map.mp hb
      obtain ⟨a, _, rfl⟩ := List.mem_map.mp hsp
      rfl
  · intro hc
    unfold processBatchWithErrorHandling
    rw [pb_allpath_result items _ bs c delay hbs hc hwrap]
    congr 1
    have h1 : (fun a => outVal (wrapSpec (proc a)).out) =
        fun a => some (match (proc a).out with
          | .ok r => (Sum.inl r : R ⊕ JSVal)
          | .error v => Sum.inr (normalizeError v)) := by
      funext a
      cases h : (proc a).out <;> simp [wrapSpec, outVal, h]
    rw [h1]
    exact congrFun (List.filterMap_eq_map
      (fun a => match (proc a).out with
        | .ok r => (Sum.inl r : R ⊕ JSVal)
        | .error v => Sum.inr (normalizeError v))) items

/-- Witness for C5 (amended) at items `[1, 2]` where the processor throws the
string `"x"` on item 2, `batchSize = concurrency = 1`. -/
theorem C5_no_reject_amended_witness :
    1 ≤ 1 ∧
      ((∃ rs, (processBatchWithErrorHandling [1, 2]
          (fun a => if a = 2 then (⟨1, Except.error (JSVal.str "x")⟩ : ItemSpec Nat JSVal)
            else ⟨1, Except.ok a⟩) 1 1 0).result = Except.ok rs) ∧
        (1 ≤ 1 → (processBatchWithErrorHandling [1, 2]
          (fun a => if a = 2 then (⟨1, Except.error (JSVal.str "x")⟩ : ItemSpec Nat JSVal)
            else ⟨1, Except.ok a⟩) 1 1 0).result =
          Except.ok (([1, 2] : List Nat).map fun a =>
            match ((fun a => if a = 2 then (⟨1, Except.error (JSVal.str "x")⟩ : ItemSpec Nat JSVal)
              else ⟨1, Except.ok a⟩) a).out with
            | .ok r => Sum.inl r
            | .error v => Sum.inr (normalizeError v)))) :=
  ⟨by decide,
    C5_no_reject_amended [1, 2]
      (fun a => if a = 2 then ⟨1, Except.error (JSVal.str "x")⟩ else ⟨1, Except.ok a⟩)
      1 1 0 (by decide)⟩

/-- Claim C6 (amended): when the call RESOLVES under a configuration in which
every batch fits under the concurrency bound (`batchSize ≤ concurrency`, in
particular the default) and the processor resolves on every item, every
processor invocation started by `processBatch` has settled by the time the
returned promise resolves.  (On the fail-fast rejection path, and when
concurrency is strictly below the batch length, started invocations can
outlive the call, see the counterexample.) -/
theorem C6_settled_amended {α R E : Type} (items : List α) (proc : α → ItemSpec R E)
    (bs c delay : Nat) (hbs : 1 ≤ bs) (hc : bs ≤ c)
    (hok : ∀ a ∈ items, (outVal (proc a).out).isSome = true) :
    ∀ p ∈ (processBatch items proc bs c delay).flights,
      (p : Nat × Flight R E).2.settle ≤ (processBatch items proc bs c delay).endTime := by
  unfold processBatch
  by_cases h0 : items.length = 0
  · rw [if_pos h0]
    intro p hp
    exact absurd hp (List.not_mem_nil p)
  · rw [if_neg h0]
    exact pbLoop_settle_le c delay _ 0 0 0 [] [] 0 (chunks_map_ok hbs hok)
      (chunks_map_len hc) (fun p hp => absurd hp (List.not_mem_nil p))

/-- Witness for C6 (amended) at items `[4, 5, 6]` with per-item duration
equal to the item, `batchSize = 2`, `concurrency = 3`, `delay = 1`. -/
theorem C6_settled_amended_witness :
    (1 ≤ 2 ∧ 2 ≤ 3) ∧
      ∀ p ∈ (processBatch [4, 5, 6]
          (fun a => (⟨a, Except.ok a⟩ : ItemSpec Nat JSVal)) 2 3 1).flights,
        (p : Nat × Flight Nat JSVal).2.settle ≤
          (processBatch [4, 5, 6]
            (fun a => (⟨a, Except.ok a⟩ : ItemSpec Nat JSVal)) 2 3 1).endTime :=
  ⟨⟨by decide, by decide⟩,
    C6_settled_amended [4, 5, 6] (fun a => ⟨a, Except.ok a⟩) 2 3 1
      (by decide) (by decide) (fun a _ => rfl)⟩

/-- Claim C7 (amended): provided every batch fits under the concurrency bound
(`batchSize ≤ concurrency`, in particular the default configuration), batches
are strictly sequential: no invocation belonging to a later batch starts
before every invocation of an earlier batch has settled — whether or not any
processor rejects.  (When concurrency is strictly below the batch length,
`processWithConcurrency` can return with invocations still pending and the
next batch overlaps them, see the failing run.) -/
theorem C7_sequential_amended {α R E : Type} (items : List α) (proc : α → ItemSpec R E)
    (bs c delay : Nat) (hbs : 1 ≤ bs) (hc : bs ≤ c) :
    ∀ p ∈ (processBatch items proc bs c delay).flights,
      ∀ q ∈ (processBatch items proc bs c delay).flights,
        (p : Nat × Flight R E).1 < (q : Nat × Flight R E).1 →
          p.2.settle ≤ q.2.start := by
  unfold processBatch
  by_cases h0 : items.length = 0
  · rw [if_pos h0]
    intro p hp
    exact absurd hp (List.not_mem_nil p)
  · rw [if_neg h0]
    exact pbLoop_sequential c delay _ 0 0 0 [] [] 0 (chunks_map_len hc)
      (fun p hp => absurd hp (List.not_mem_nil p))
      (fun p hp => absurd hp (List.not_mem_nil p))
      (fun p hp => absurd hp (List.not_mem_nil p))

/-- Witness for C7 (amended) at items `[4, 5, 6]` (three batches of one,
the only invocation of batch 1 rejecting), `batchSize = concurrency = 1`. -/
theorem C7_sequential_amended_witness :
    (1 ≤ 1 ∧ 1 ≤ 1) ∧
      ∀ p ∈ (processBatch [4, 5, 6]
          (fun a => (⟨a, if a = 5 then Except.error (JSVal.str "x")
            else Except.ok a⟩ : ItemSpec Nat JSVal)) 1 1 0).flights,
        ∀ q ∈ (processBatch [4, 5, 6]
            (fun a => (⟨a, if a = 5 then Except.error (JSVal.str "x")
              else Except.ok a⟩ : ItemSpec Nat JSVal)) 1 1 0).flights,
          (p : Nat × Flight Nat JSVal).1 < (q : Nat × Flight Nat JSVal).1 →
            p.2.settle ≤ q.2.start :=
  ⟨⟨by decide, by decide⟩,
    C7_sequential_amended [4, 5, 6]
      (fun a => ⟨a, if a = 5 then Except.error (JSVal.str "x") else Except.ok a⟩) 1 1 0
      (by decide) (by decide)⟩

/-- Claim C8: in `processBatchWithErrorHandling`, a thrown value that is
already an error object is captured unchanged (the very same error value is
returned), and a thrown non-error value is replaced by a new error whose
message is the string representation of the thrown value. -/
theorem C8_error_normalization {R : Type} (s : ItemSpec R JSVal) (v : JSVal)
    (h : s.out = Except.error v) :
    (wrapSpec s).out = Except.ok (Sum.inr (normalizeError v)) ∧
      (instanceofError v = true → normalizeError v = v) ∧
      (instanceofError v = false → normalizeError v = JSVal.error (jsToString v)) := by
  refine ⟨?_, ?_, ?_⟩
  · simp [wrapSpec, h]
  · intro hi; simp [normalizeError, hi]
  · intro hi; simp [normalizeError, hi]

/-- Witness for C8 at a processor throwing the string `"oops"` (captured as
`Error("oops")`) and at one throwing `Error("bad")` (captured unchanged). -/
theorem C8_error_normalization_witness :
    (wrapSpec (⟨7, Except.error (JSVal.str "oops")⟩ : ItemSpec Nat JSVal)).out =
        Except.ok (Sum.inr (normalizeError (JSVal.str "oops"))) ∧
      normalizeError (JSVal.str "oops") = JSVal.error "oops" ∧
      normalizeError (JSVal.error "bad") = JSVal.error "bad" :=
  ⟨(C8_error_normalization (⟨7, Except.error (JSVal.str "oops")⟩ : ItemSpec Nat JSVal)
      (JSVal.str "oops") rfl).1,
    (C8_error_normalization (⟨7, Except.error (JSVal.str "oops")⟩ : ItemSpec Nat JSVal)
      (JSVal.str "oops") rfl).2.2 rfl,
    (C8_error_normalization (⟨3, Except.error (JSVal.error "bad")⟩ : ItemSpec Nat JSVal)
      (JSVal.error "bad") rfl).2.1 rfl⟩

/-- Claim C9: on a resolving run (never-rejecting processor, valid
`batchSize ≥ 1`), with `m` batches and `delay > 0` the runner sleeps exactly
`m - 1` times — once between each pair of consecutive batches and never
after the final batch — and with `delay = 0` it never sleeps. -/
theorem C9_delay_count {α R E : Type} (items : List α) (proc : α → ItemSpec R E)
    (bs c delay : Nat) (hbs : 1 ≤ bs)
    (hok : ∀ a ∈ items, (outVal (proc a).out).isSome = true) :
    (0 < delay → (processBatch items proc bs c delay).sleeps =
      (chunkLoop bs items).length - 1) ∧
    (delay = 0 → (processBatch items proc bs c delay).sleeps = 0) := by
  unfold processBatch
  by_cases h0 : items.length = 0
  · rw [if_pos h0]
    have h1 : items = [] := List.eq_nil_of_length_eq_zero h0
    subst h1
    exact ⟨fun _ => rfl, fun _ => rfl⟩
  · rw [if_neg h0]
    rw [pbLoop_allok_sleeps c delay _ 0 0 0 [] [] 0 (chunks_map_ok hbs hok)]
    constructor
    · intro hd
      rw [if_pos hd, List.length_map, Nat.zero_add]
    · intro hd
      subst hd
      rw [if_neg (by omega)]

/-- Witness for C9 at items `[0, 1, 2]`, `batchSize = concurrency = 1` (three
batches), `delay = 4`: three batches, so two sleeps; and the `delay = 0`
clause holds vacuously. -/
theorem C9_delay_count_witness :
    1 ≤ 1 ∧
      ((0 < 4 → (processBatch [0, 1, 2]
          (fun a => (⟨a, Except.ok a⟩ : ItemSpec Nat JSVal)) 1 1 4).sleeps =
        (chunkLoop 1 ([0, 1, 2] : List Nat)).length - 1) ∧
      (4 = 0 → (processBatch [0, 1, 2]
          (fun a => (⟨a, Except.ok a⟩ : ItemSpec Nat JSVal)) 1 1 4).sleeps = 0)) :=
  ⟨by decide,
    C9_delay_count [0, 1, 2] (fun a => ⟨a, Except.ok a⟩) 1 1 4 (by decide)
      (fun a _ => rfl)⟩

/-- Claim C10: for a non-empty input and `batchSize ≤ 0`, the chunking loop of
`splitArrayIntoChunks` never exits — the index advances by `batchSize` each
iteration, so it never reaches the input length — hence `processBatch` never
completes within any number of loop iterations: no batch list is produced and
the processor is never invoked. -/
theorem C10_nontermination {α R E : Type} (items : List α) (proc : α → ItemSpec R E)
    (bs : Int) (c delay fu : Nat) (hne : items ≠ []) (hbs : bs ≤ 0) :
    processBatchFuel items proc bs c delay fu = none := by
  unfold processBatchFuel
  rw [if_neg fun h => hne (List.eq_nil_of_length_eq_zero h)]
  rw [splitFuel_none items bs hne hbs fu 0 le_rfl []]
  rfl

/-- Witness for C10 at items `[0]`, `batchSize = 0`, 100 iterations of fuel. -/
theorem C10_nontermination_witness :
    ([0] : List Nat) ≠ [] ∧ (0 : Int) ≤ 0 ∧
      processBatchFuel [0] (fun a => (⟨1, Except.ok a⟩ : ItemSpec Nat JSVal))
        0 1 0 100 = none :=
  ⟨by decide, by decide,
    C10_nontermination [0] (fun a => ⟨1, Except.ok a⟩) 0 1 0 100
      (by decide) (by decide)⟩

namespace BatchModel

/-! ### Agreement of the fuelled source chunking loop with `chunkLoop` -/

theorem jsSliceInt_take_drop (l : List α) (i cs : Nat) (hi : i < l.length) :
    jsSliceInt l (i : Int) ((i : Int) + (cs : Int)) = (l.drop i).take cs := by
  simp only [jsSliceInt]
  rw [if_neg (by omega), if_neg (by omega), min_eq_left (by omega : (i : Int) ≤ l.length)]
  by_cases hcase : i + cs ≤ l.length
  · rw [show ((min ((i : Int) + (cs : Int)) (l.length : Int)) - (i : Int)).toNat = cs by
      rw [min_eq_left (by omega)]; omega]
    rw [Int.toNat_natCast]
  · rw [show ((min ((i : Int) + (cs : Int)) (l.length : Int)) - (i : Int)).toNat =
        l.length - i by rw [min_eq_right (by omega)]; omega]
    rw [Int.toNat_natCast,
      List.take_of_length_le (by rw [List.length_drop]),
      List.take_of_length_le (by rw [List.length_drop]; omega)]

theorem splitFuel_eq_chunkGo (l : List α) (cs : Nat) (hcs : 1 ≤ cs) :
    ∀ (fu i : Nat) (acc : List (List α)), l.length - i < fu →
      splitFuel l (cs : Int) fu (i : Int) acc =
        some (acc ++ chunkGo cs (l.length - i) (l.drop i)) := by
  intro fu
  induction fu with
  | zero => intro i acc h; exact absurd h (by omega)
  | succ fu ih =>
    intro i acc h
    simp only [splitFuel]
    by_cases hi : (i : Int) < (l.length : Int)
    · rw [if_pos hi]
      have hiN : i < l.length := by exact_mod_cast hi
      rw [jsSliceInt_take_drop l i cs hiN,
        show (i : Int) + (cs : Int) = ((i + cs : Nat) : Int) by push_cast; ring,
        ih (i + cs) _ (by omega)]
      congr 1
      rw [List.append_assoc]
      congr 1
      obtain ⟨a, l', hal⟩ : ∃ a l', l.drop i = a :: l' := by
        cases hd : l.drop i with
        | nil =>
          have h1 := congrArg List.length hd
          rw [List.length_drop] at h1
          exact absurd h1 (by simp; omega)
        | cons a l' => exact ⟨a, l', rfl⟩
      rw [hal,
        show l.length - i = (l.length - i - 1) + 1 by omega,
        show chunkGo cs ((l.length - i - 1) + 1) (a :: l') =
          (a :: l').take cs :: chunkGo cs (l.length - i - 1) ((a :: l').drop cs) from rfl]
      have htl : (a :: l').drop cs = l.drop (i + cs) := by
        rw [← hal, List.drop_drop]
      rw [htl, ← hal]
      have hlen1 : (l.drop (i + cs)).length ≤ l.length - (i + cs) := by
        rw [List.length_drop]
      have hlen2 : (l.drop (i + cs)).length ≤ l.length - i - 1 := by
        rw [List.length_drop]; omega
      rw [chunkGo_fuel hcs (l.length - (i + cs)) (l.length - i - 1)
        (l.drop (i + cs)) hlen1 hlen2]
      rfl
    · rw [if_neg hi]
      have hiN : l.length ≤ i := by omega
      rw [show l.length - i = 0 by omega, List.drop_eq_nil_of_le hiN, chunkGo_nil,
        List.append_nil]

/-- For a positive chunk size the source chunking loop exits within
`items.length` iterations and produces exactly `chunkLoop`. -/
theorem splitFuel_eq_chunkLoop (l : List α) (cs : Nat) (hcs : 1 ≤ cs) (fu : Nat)
    (hfu : l.length < fu) :
    splitFuel l (cs : Int) fu 0 [] = some (chunkLoop cs l) := by
  have h := splitFuel_eq_chunkGo l cs hcs fu 0 [] (by omega)
  rw [show ((0 : Nat) : Int) = (0 : Int) from rfl] at h
  rw [h, Nat.sub_zero, List.drop_zero, List.nil_append]
  rfl

/-- With a valid `batchSize ≥ 1`, the literal (fuelled) embedding of
`processBatch` completes and agrees with the total model `processBatch`:
the total model is the source loop in the terminating regime. -/
theorem processBatchFuel_eq (items : List α) (proc : α → ItemSpec R E)
    (bs c delay : Nat) (hbs : 1 ≤ bs) (fu : Nat) (hfu : items.length < fu) :
    processBatchFuel items proc (bs : Int) c delay fu =
      some (processBatch items proc bs c delay) := by
  unfold processBatchFuel processBatch
  by_cases h0 : items.length = 0
  · rw [if_pos h0, if_pos h0]
  · rw [if_neg h0, if_neg h0, splitFuel_eq_chunkLoop items bs hbs fu hfu]
    rfl

end BatchModel
